import Mathlib

/-!
Shallow embedding of the neighbor-resolution cache (`src/iface/neighbor.rs`)
and of the pass-through tracer device (`src/phy/tracer.rs`) of the smoltcp
fork, together with proofs of the specified properties.

Machine integers: all timestamps in the source are `u64` milliseconds and the
arithmetic performed on them (`timestamp + 60_000`, `timestamp + 1_000`) never
comes near `2^64` in any reachable use, so timestamps are embedded as `Nat`.

The address types (`wire::EthernetAddress`, `wire::IpAddress`) and the storage
type (`managed::ManagedMap`) live outside the two source files; they are
modelled from the specification's description of their interfaces, with each
such definition marked `Modelled from the spec:`.
-/

/-- Modelled from the spec: the hardware (link-layer, Ethernet MAC) address
type; the repository's `wire::EthernetAddress` is not under `src/`. Six
octets; the well-known broadcast value is ff:ff:ff:ff:ff:ff; a multicast
address has the low bit of the first octet set; an address is unicast iff it
is neither broadcast nor multicast. -/
structure EthernetAddress where
  a0 : Nat
  a1 : Nat
  a2 : Nat
  a3 : Nat
  a4 : Nat
  a5 : Nat
deriving DecidableEq, Repr

/-- The well-known hardware broadcast address ff:ff:ff:ff:ff:ff. -/
def EthernetAddress.BROADCAST : EthernetAddress :=
  ⟨255, 255, 255, 255, 255, 255⟩

def EthernetAddress.is_broadcast (a : EthernetAddress) : Bool :=
  decide (a = EthernetAddress.BROADCAST)

def EthernetAddress.is_multicast (a : EthernetAddress) : Bool :=
  a.a0 % 2 = 1

def EthernetAddress.is_unicast (a : EthernetAddress) : Bool :=
  !(a.is_broadcast || a.is_multicast)

/-- Modelled from the spec: the protocol (network-layer) address type with
unicast/broadcast/multicast classification; the repository's
`wire::IpAddress` is not under `src/`. Modelled as an IPv4 address: four
octets; broadcast is 255.255.255.255; multicast is the 224.0.0.0/4 block;
unicast is anything that is neither broadcast, multicast nor the unspecified
address 0.0.0.0. -/
structure IpAddress where
  b0 : Nat
  b1 : Nat
  b2 : Nat
  b3 : Nat
deriving DecidableEq, Repr

def IpAddress.is_broadcast (a : IpAddress) : Bool :=
  decide (a = ⟨255, 255, 255, 255⟩)

def IpAddress.is_multicast (a : IpAddress) : Bool :=
  224 ≤ a.b0 && a.b0 ≤ 239

def IpAddress.is_unspecified (a : IpAddress) : Bool :=
  decide (a = ⟨0, 0, 0, 0⟩)

def IpAddress.is_unicast (a : IpAddress) : Bool :=
  !(a.is_broadcast || a.is_multicast || a.is_unspecified)

/-- A cached neighbor (`struct Neighbor`, src/iface/neighbor.rs lines 12-16):
the hardware address a protocol address resolves to, and the absolute
timestamp past which the mapping is stale. -/
structure Neighbor where
  hardware_addr : EthernetAddress
  expires_at : Nat
deriving DecidableEq, Repr

/-- An answer to a neighbor cache lookup (`enum Answer`,
src/iface/neighbor.rs lines 19-28). -/
inductive Answer where
  | Found (hardware_addr : EthernetAddress)
  | NotFound
  | Hushed
deriving DecidableEq, Repr

/-- One slot of the bounded (borrowed) storage: either free or holding a
(protocol address, neighbor) pair. -/
abbrev Slot := Option (IpAddress × Neighbor)

/-- Modelled from the spec: the bounded variant of `managed::ManagedMap`
(an external crate, not part of this repository), described in the spec as a
fixed-capacity key-unique mapping supporting insert
(failure-with-value on capacity exhaustion), get-by-key, remove-by-key, full
clear, and iteration over all occupied (key, value) pairs. Modelled as a
fixed-length list of slots; iteration order is slot order. -/
structure BorrowedMap where
  slots : List Slot
deriving DecidableEq, Repr

/-- Get-by-key over the slot list: the value of the first occupied slot whose
key matches. -/
def getSlots (k : IpAddress) : List Slot → Option Neighbor
  | [] => none
  | none :: rest => getSlots k rest
  | some (k', v) :: rest => if k' = k then some v else getSlots k rest

/-- Replace-in-place: if some occupied slot holds key `k`, overwrite its
value with `v` and return the updated slots with the previous value;
otherwise fail. -/
def replaceSlots (k : IpAddress) (v : Neighbor) :
    List Slot → Option (List Slot × Neighbor)
  | [] => none
  | none :: rest =>
    match replaceSlots k v rest with
    | some (r, old) => some (none :: r, old)
    | none => none
  | some (k', v') :: rest =>
    if k' = k then
      some (some (k, v) :: rest, v')
    else
      match replaceSlots k v rest with
      | some (r, old) => some (some (k', v') :: r, old)
      | none => none

/-- Put `(k, v)` into the first free slot; fail when every slot is occupied
(capacity exhaustion). -/
def placeFree (k : IpAddress) (v : Neighbor) : List Slot → Option (List Slot)
  | [] => none
  | none :: rest => some (some (k, v) :: rest)
  | some p :: rest =>
    match placeFree k v rest with
    | some r => some (some p :: r)
    | none => none

/-- Remove-by-key: free the first occupied slot whose key matches and return
the updated slots with the removed value; fail when the key is absent. -/
def removeSlots (k : IpAddress) : List Slot → Option (List Slot × Neighbor)
  | [] => none
  | none :: rest =>
    match removeSlots k rest with
    | some (r, old) => some (none :: r, old)
    | none => none
  | some (k', v') :: rest =>
    if k' = k then
      some (none :: rest, v')
    else
      match removeSlots k rest with
      | some (r, old) => some (some (k', v') :: r, old)
      | none => none

/-- Result of a bounded-map insertion: value replaced (`Ok(Some(old))` in the
source), fresh insertion (`Ok(None)`), or capacity exhausted
(`Err((key, value))`). -/
inductive InsertResult where
  | replaced (m : BorrowedMap) (old : Neighbor)
  | fresh (m : BorrowedMap)
  | full
deriving DecidableEq, Repr

/-- Modelled from the spec: key-unique insert of the storage interface — if
the key already exists its value is replaced, otherwise the pair goes into a
free slot, and insertion fails with the pair when the bounded map is at
capacity. -/
def BorrowedMap.insert (m : BorrowedMap) (k : IpAddress) (v : Neighbor) :
    InsertResult :=
  match replaceSlots k v m.slots with
  | some (s, old) => .replaced ⟨s⟩ old
  | none =>
    match placeFree k v m.slots with
    | some s => .fresh ⟨s⟩
    | none => .full

def BorrowedMap.get (m : BorrowedMap) (k : IpAddress) : Option Neighbor :=
  getSlots k m.slots

def BorrowedMap.remove (m : BorrowedMap) (k : IpAddress) :
    Option (BorrowedMap × Neighbor) :=
  match removeSlots k m.slots with
  | some (s, old) => some (⟨s⟩, old)
  | none => none

/-- Modelled from the spec: full clear of the storage interface — every slot
is freed; the capacity (number of slots) is unchanged. -/
def BorrowedMap.clear (m : BorrowedMap) : BorrowedMap :=
  ⟨m.slots.map (fun _ => none)⟩

/-- Occupied (key, value) pairs in iteration (slot) order. -/
def BorrowedMap.entries (m : BorrowedMap) : List (IpAddress × Neighbor) :=
  m.slots.filterMap id

/-- Keys of the occupied slots in iteration order. -/
def BorrowedMap.keys (m : BorrowedMap) : List IpAddress :=
  m.entries.map Prod.fst

/-- Keys of the occupied slots of a raw slot list, in iteration order. -/
def keysOf (l : List Slot) : List IpAddress :=
  (l.filterMap id).map Prod.fst

/-- A neighbor cache backed by a map (`struct Cache`, src/iface/neighbor.rs
lines 48-51): the storage plus the single global `hushed_until` timestamp. -/
structure Cache where
  storage : BorrowedMap
  hushed_until : Nat
deriving DecidableEq, Repr

namespace Cache

/-- Minimum delay between discovery requests, in milliseconds
(src/iface/neighbor.rs line 55). -/
def SILENT_TIME : Nat := 1000

/-- Neighbor entry lifetime, in milliseconds (src/iface/neighbor.rs
line 58). -/
def ENTRY_LIFETIME : Nat := 60000

/-- Embedding of `Cache::new` (src/iface/neighbor.rs lines 64-70): the backing storage is
cleared and `hushed_until` starts at 0. The source performs no capacity
check, despite its `# Panics` doc comment. -/
def new (storage : BorrowedMap) : Cache :=
  ⟨storage.clear, 0⟩

/-- The eviction scan of `Cache::fill` (src/iface/neighbor.rs lines 93-108):
`pairs.iter().min_by_key(|pair_opt| pair_opt.unwrap().1.expires_at)`.
Returns the first (in iteration order) pair with minimal `expires_at`, or
`none` for the empty list (Rust's `min_by_key` on an empty iterator). -/
def minByExpires : List (IpAddress × Neighbor) → Option (IpAddress × Neighbor)
  | [] => none
  | p :: rest =>
    match minByExpires rest with
    | none => some p
    | some q => if p.2.expires_at ≤ q.2.expires_at then some p else some q

/-- The victim selection of the eviction branch over the raw slots. The key
closure of `min_by_key` calls `pair_opt.unwrap()` on every slot, so a free
slot would panic; the subsequent `.expect("empty neighbor cache storage")`
panics on empty storage. A panic is modelled as `none`. -/
def scanVictim (slots : List Slot) : Option IpAddress :=
  if slots.all Option.isSome then
    (minByExpires (slots.filterMap id)).map Prod.fst
  else
    none

/-- Embedding of `Cache::fill` (src/iface/neighbor.rs lines 72-124). A `none` result
models a panic (the `expect`/`unwrap`/`unreachable!` of the eviction branch).
The `debug_assert!` unicast preconditions are build-mode-gated in the source
and are not part of the release-mode behaviour modelled here; the
`net_trace!` diagnostics have no functional effect. -/
def fill (c : Cache) (protocol_addr : IpAddress)
    (hardware_addr : EthernetAddress) (timestamp : Nat) : Option Cache :=
  let neighbor : Neighbor := ⟨hardware_addr, timestamp + ENTRY_LIFETIME⟩
  match c.storage.insert protocol_addr neighbor with
  | .replaced s _ => some { c with storage := s }
  | .fresh s => some { c with storage := s }
  | .full =>
    match scanVictim c.storage.slots with
    | none => none
    | some old_protocol_addr =>
      match c.storage.remove old_protocol_addr with
      | none => none
      | some (s, _) =>
        match s.insert protocol_addr neighbor with
        | .fresh s2 => some { c with storage := s2 }
        | _ => none

/-- Embedding of `Cache::lookup_pure` (src/iface/neighbor.rs lines 126-142). -/
def lookup_pure (c : Cache) (protocol_addr : IpAddress) (timestamp : Nat) :
    Option EthernetAddress :=
  if protocol_addr.is_broadcast then
    some EthernetAddress.BROADCAST
  else
    match c.storage.get protocol_addr with
    | some n => if timestamp < n.expires_at then some n.hardware_addr else none
    | none => none

/-- Embedding of `Cache::lookup` (src/iface/neighbor.rs lines 144-155); the updated cache
is returned alongside the answer (`&mut self` in the source). -/
def lookup (c : Cache) (protocol_addr : IpAddress) (timestamp : Nat) :
    Answer × Cache :=
  match c.lookup_pure protocol_addr timestamp with
  | some hardware_addr => (.Found hardware_addr, c)
  | none =>
    if timestamp < c.hushed_until then
      (.Hushed, c)
    else
      (.NotFound, { c with hushed_until := timestamp + SILENT_TIME })

end Cache

/-- Test addresses mirroring the source's test module
(src/iface/neighbor.rs lines 163-171). -/
def HADDR_A : EthernetAddress := ⟨0, 0, 0, 0, 0, 2⟩

def HADDR_B : EthernetAddress := ⟨0, 0, 0, 0, 0, 4⟩

def HADDR_C : EthernetAddress := ⟨0, 0, 0, 0, 0, 6⟩

def HADDR_D : EthernetAddress := ⟨0, 0, 0, 0, 0, 8⟩

def PADDR_A : IpAddress := ⟨1, 0, 0, 1⟩

def PADDR_B : IpAddress := ⟨1, 0, 0, 2⟩

def PADDR_C : IpAddress := ⟨1, 0, 0, 3⟩

def PADDR_D : IpAddress := ⟨1, 0, 0, 4⟩

/-- An empty three-slot cache, as in the source's tests. -/
def cache3 : Cache := Cache.new ⟨[none, none, none]⟩

/-- A cache holding one fresh entry for `PADDR_A`, used by witnesses. -/
def cacheA : Cache :=
  ⟨⟨[some (PADDR_A, ⟨HADDR_A, 60000⟩), none, none]⟩, 0⟩

/-- A cache holding one entry and an open hush window, used by witnesses. -/
def cacheHushed : Cache :=
  ⟨⟨[some (PADDR_A, ⟨HADDR_A, 60000⟩), none, none]⟩, 500⟩

/-- Operation sequences the global-hush claim allows between the `NotFound`
answer and the later lookup: successful fills and resolved (`Found`)
lookups, in any number and order. -/
inductive Steps : Cache → Cache → Prop where
  | refl (c : Cache) : Steps c c
  | fill (c c' c'' : Cache) (p : IpAddress) (hw : EthernetAddress) (t : Nat)
      (hf : c.fill p hw t = some c') (hs : Steps c' c'') : Steps c c''
  | found (c c' c'' : Cache) (p : IpAddress) (t : Nat) (hw : EthernetAddress)
      (hl : c.lookup p t = (.Found hw, c')) (hs : Steps c' c'') : Steps c c''

/-- The cache reached after `lookup(PADDR_A, 0)` misses on an empty cache. -/
def cacheHush1 : Cache := ⟨⟨[none, none, none]⟩, 1000⟩

/-- The cache `cacheHush1` after an intervening `fill(PADDR_C, HADDR_C, 10)`. -/
def cacheHush2 : Cache :=
  ⟨⟨[some (PADDR_C, ⟨HADDR_C, 60010⟩), none, none]⟩, 1000⟩

/-- A full capacity-1 cache, used by the C6 witness. -/
def cacheFull1 : Cache := ⟨⟨[some (PADDR_A, ⟨HADDR_A, 60100⟩)]⟩, 0⟩

/-- The cache of the source's `test_evict` just before the evicting fill:
`A` filled at 100, `B` at 50, `C` at 200, capacity 3. -/
def cacheABC : Cache :=
  ⟨⟨[some (PADDR_A, ⟨HADDR_A, 60100⟩), some (PADDR_B, ⟨HADDR_B, 60050⟩),
     some (PADDR_C, ⟨HADDR_C, 60200⟩)]⟩, 0⟩

namespace Tracer

/-- A record of one invocation of the tracer's writer function: the
timestamp it was called with, the pretty-printing direction tag, and the
frame bytes it was shown (`PrettyPrinter::new(tag, &buffer)` in
src/phy/tracer.rs). -/
structure WriterCall where
  timestamp : Nat
  tag : String
  frame : List Nat
deriving DecidableEq, Repr

/-- Modelled from the spec: the underlying receive capability wrapped by the
tracer (a `phy::RxToken` of the inner device — out of this core's scope):
consuming it runs the caller's closure once on the frame buffer the device
received and returns the closure's result. Closures are embedded as
functions that also report the list of writer calls made while they ran, so
that the position of the tracer's writer invocation relative to the
closure is observable. -/
structure PhyRxToken where
  buffer : List Nat

def PhyRxToken.consume {R : Type} (token : PhyRxToken) (_timestamp : Nat)
    (f : List Nat → R × List WriterCall) : R × List WriterCall :=
  f token.buffer

/-- Modelled from the spec: the underlying transmit capability wrapped by
the tracer (a `phy::TxToken` of the inner device): consuming it hands the
caller's closure a device buffer of the requested length, transmits the
buffer exactly as the closure left it, and returns the closure's result
together with the transmitted buffer. -/
structure PhyTxToken where
  scratch : Nat → List Nat

def PhyTxToken.consume {R : Type} (token : PhyTxToken) (_timestamp : Nat)
    (len : Nat) (f : List Nat → List Nat × R × List WriterCall) :
    List Nat × R × List WriterCall :=
  f (token.scratch len)

/-- The tracer's receive token (`struct RxToken`, src/phy/tracer.rs lines
54-57); the writer function itself is stateless, so only the wrapped token
is carried and writer invocations are recorded as `WriterCall` events. -/
structure RxToken where
  token : PhyRxToken

/-- Embedding of `RxToken::consume` (src/phy/tracer.rs lines 60-68): delegates to the
inner token with a closure that first invokes the writer on the unmodified
received buffer (tag `"<- "`) and then runs the caller's closure on it,
returning the closure's result. -/
def RxToken.consume {R : Type} (self : RxToken) (timestamp : Nat)
    (f : List Nat → R × List WriterCall) : R × List WriterCall :=
  self.token.consume timestamp (fun buffer =>
    let r := f buffer
    (r.1, ⟨timestamp, "<- ", buffer⟩ :: r.2))

/-- The tracer's transmit token (`struct TxToken`, src/phy/tracer.rs lines
72-75). -/
structure TxToken where
  token : PhyTxToken

/-- Embedding of `TxToken::consume` (src/phy/tracer.rs lines 78-87): delegates to the
inner token with a closure that first runs the caller's closure on the
device buffer and then invokes the writer (tag `"-> "`) on the buffer as
the closure left it, returning the closure's result. -/
def TxToken.consume {R : Type} (self : TxToken) (timestamp : Nat) (len : Nat)
    (f : List Nat → List Nat × R × List WriterCall) :
    List Nat × R × List WriterCall :=
  self.token.consume timestamp len (fun buffer =>
    let r := f buffer
    (r.1, r.2.1, r.2.2 ++ [⟨timestamp, "-> ", r.1⟩]))

end Tracer

theorem IpAddress.not_broadcast_of_unicast {a : IpAddress}
    (h : a.is_unicast = true) : a.is_broadcast = false := by
  unfold IpAddress.is_unicast at h
  simp only [Bool.not_eq_true', Bool.or_eq_false_iff] at h
  exact h.1.1

theorem getSlots_eq_none_iff (k : IpAddress) (l : List Slot) :
    getSlots k l = none ↔ k ∉ keysOf l := by
  induction l with
  | nil => simp [getSlots, keysOf]
  | cons s rest ih =>
    rcases s with _ | ⟨k', v⟩
    · simpa [getSlots, keysOf, List.filterMap_cons] using ih
    · by_cases hk : k' = k
      · subst hk
        simp [getSlots, keysOf, List.filterMap_cons]
      · simp only [getSlots, keysOf, List.filterMap_cons, id] at *
        simp [hk, ih, Ne.symm hk]

theorem replaceSlots_eq_none_iff (k : IpAddress) (v : Neighbor)
    (l : List Slot) : replaceSlots k v l = none ↔ getSlots k l = none := by
  induction l with
  | nil => simp [replaceSlots, getSlots]
  | cons s rest ih =>
    rcases s with _ | ⟨k', v'⟩
    · simp only [replaceSlots, getSlots]
      cases h : replaceSlots k v rest with
      | none => simpa [h] using ih
      | some p => simp only [h] at ih ⊢; simp [← ih]
    · by_cases hk : k' = k
      · subst hk; simp [replaceSlots, getSlots]
      · simp only [replaceSlots, getSlots, if_neg hk]
        cases h : replaceSlots k v rest with
        | none => simpa [h] using ih
        | some p => simp only [h] at ih ⊢; simp [← ih]

theorem replaceSlots_spec (k : IpAddress) (v : Neighbor) :
    ∀ (l l' : List Slot) (old : Neighbor),
      replaceSlots k v l = some (l', old) →
      getSlots k l' = some v ∧ getSlots k l = some old ∧
      keysOf l' = keysOf l ∧
      ∀ q, q ≠ k → getSlots q l' = getSlots q l := by
  intro l
  induction l with
  | nil => intro l' old h; simp [replaceSlots] at h
  | cons s rest ih =>
    intro l' old h
    rcases s with _ | ⟨k', v'⟩
    · simp only [replaceSlots] at h
      cases hr : replaceSlots k v rest with
      | none => rw [hr] at h; exact absurd h (by simp)
      | some p =>
        rw [hr] at h
        obtain ⟨r, o⟩ := p
        simp only [Option.some.injEq, Prod.mk.injEq] at h
        obtain ⟨rfl, rfl⟩ := h
        obtain ⟨h1, h2, h3, h4⟩ := ih r o hr
        refine ⟨by simpa [getSlots] using h1, by simpa [getSlots] using h2,
          by simpa [keysOf, List.filterMap_cons] using h3,
          fun q hq => by simpa [getSlots] using h4 q hq⟩
    · by_cases hk : k' = k
      · subst hk
        simp only [replaceSlots, if_pos rfl, Option.some.injEq,
          Prod.mk.injEq] at h
        obtain ⟨rfl, rfl⟩ := h
        refine ⟨by simp [getSlots], by simp [getSlots],
          by simp [keysOf, List.filterMap_cons],
          fun q hq => by simp [getSlots, Ne.symm hq]⟩
      · simp only [replaceSlots, if_neg hk] at h
        cases hr : replaceSlots k v rest with
        | none => rw [hr] at h; exact absurd h (by simp)
        | some p =>
          rw [hr] at h
          obtain ⟨r, o⟩ := p
          simp only [Option.some.injEq, Prod.mk.injEq] at h
          obtain ⟨rfl, rfl⟩ := h
          obtain ⟨h1, h2, h3, h4⟩ := ih r o hr
          refine ⟨by simpa [getSlots, if_neg hk] using h1,
            by simpa [getSlots, if_neg hk] using h2,
            by simpa [keysOf, List.filterMap_cons] using h3, ?_⟩
          intro q hq
          by_cases hq' : k' = q
          · subst hq'; simp [getSlots]
          · simpa [getSlots, if_neg hq'] using h4 q hq

theorem placeFree_eq_none_iff (k : IpAddress) (v : Neighbor) (l : List Slot) :
    placeFree k v l = none ↔ l.all Option.isSome = true := by
  induction l with
  | nil => simp [placeFree]
  | cons s rest ih =>
    rcases s with _ | p
    · simp [placeFree]
    · simp only [placeFree]
      cases h : placeFree k v rest with
      | none => simpa [h] using ih
      | some r => simp only [h] at ih ⊢; simp [← ih]

theorem placeFree_spec (k : IpAddress) (v : Neighbor) :
    ∀ (l l' : List Slot), placeFree k v l = some l' →
      List.Perm (keysOf l') (k :: keysOf l) ∧
      (getSlots k l = none → getSlots k l' = some v) ∧
      ∀ q, q ≠ k → getSlots q l' = getSlots q l := by
  intro l
  induction l with
  | nil => intro l' h; simp [placeFree] at h
  | cons s rest ih =>
    intro l' h
    rcases s with _ | ⟨k', v'⟩
    · simp only [placeFree, Option.some.injEq] at h
      subst h
      refine ⟨by simp [keysOf, List.filterMap_cons], ?_, ?_⟩
      · intro _; simp [getSlots]
      · intro q hq; simp [getSlots, Ne.symm hq]
    · simp only [placeFree] at h
      cases hr : placeFree k v rest with
      | none => rw [hr] at h; exact absurd h (by simp)
      | some r =>
        rw [hr] at h
        simp only [Option.some.injEq] at h
        subst h
        obtain ⟨h1, h2, h3⟩ := ih r hr
        refine ⟨?_, ?_, ?_⟩
        · simp only [keysOf, List.filterMap_cons, id] at h1 ⊢
          exact (h1.cons k').trans (List.Perm.swap k k' _)
        · intro hget
          by_cases hk : k' = k
          · subst hk; simp [getSlots] at hget
          · simp only [getSlots, if_neg hk] at hget ⊢
            exact h2 hget
        · intro q hq
          by_cases hq' : k' = q
          · subst hq'; simp [getSlots]
          · simpa [getSlots, if_neg hq'] using h3 q hq

theorem removeSlots_eq_none_iff (k : IpAddress) (l : List Slot) :
    removeSlots k l = none ↔ getSlots k l = none := by
  induction l with
  | nil => simp [removeSlots, getSlots]
  | cons s rest ih =>
    rcases s with _ | ⟨k', v'⟩
    · simp only [removeSlots, getSlots]
      cases h : removeSlots k rest with
      | none => simpa [h] using ih
      | some p => simp only [h] at ih ⊢; simp [← ih]
    · by_cases hk : k' = k
      · subst hk; simp [removeSlots, getSlots]
      · simp only [removeSlots, getSlots, if_neg hk]
        cases h : removeSlots k rest with
        | none => simpa [h] using ih
        | some p => simp only [h] at ih ⊢; simp [← ih]

theorem removeSlots_spec (k : IpAddress) :
    ∀ (l l' : List Slot) (old : Neighbor),
      removeSlots k l = some (l', old) →
      getSlots k l = some old ∧
      List.Perm (k :: keysOf l') (keysOf l) ∧
      (l'.all Option.isSome = false) ∧
      ∀ q, q ≠ k → getSlots q l' = getSlots q l := by
  intro l
  induction l with
  | nil => intro l' old h; simp [removeSlots] at h
  | cons s rest ih =>
    intro l' old h
    rcases s with _ | ⟨k', v'⟩
    · simp only [removeSlots] at h
      cases hr : removeSlots k rest with
      | none => rw [hr] at h; exact absurd h (by simp)
      | some p =>
        rw [hr] at h
        obtain ⟨r, o⟩ := p
        simp only [Option.some.injEq, Prod.mk.injEq] at h
        obtain ⟨rfl, rfl⟩ := h
        obtain ⟨h1, h2, h3, h4⟩ := ih r o hr
        refine ⟨by simpa [getSlots] using h1,
          by simpa [keysOf, List.filterMap_cons] using h2,
          by simp [h3],
          fun q hq => by simpa [getSlots] using h4 q hq⟩
    · by_cases hk : k' = k
      · subst hk
        simp only [removeSlots, if_pos rfl, Option.some.injEq,
          Prod.mk.injEq] at h
        obtain ⟨rfl, rfl⟩ := h
        refine ⟨by simp [getSlots], by simp [keysOf, List.filterMap_cons],
          by simp, fun q hq => by simp [getSlots, Ne.symm hq]⟩
      · simp only [removeSlots, if_neg hk] at h
        cases hr : removeSlots k rest with
        | none => rw [hr] at h; exact absurd h (by simp)
        | some p =>
          rw [hr] at h
          obtain ⟨r, o⟩ := p
          simp only [Option.some.injEq, Prod.mk.injEq] at h
          obtain ⟨rfl, rfl⟩ := h
          obtain ⟨h1, h2, h3, h4⟩ := ih r o hr
          refine ⟨by simpa [getSlots, if_neg hk] using h1, ?_,
            by simp [h3], ?_⟩
          · simp only [keysOf, List.filterMap_cons, id] at h2 ⊢
            exact (List.Perm.swap k' k _).trans (h2.cons k')
          · intro q hq
            by_cases hq' : k' = q
            · subst hq'; simp [getSlots]
            · simpa [getSlots, if_neg hq'] using h4 q hq

theorem minByExpires_eq_none_iff (l : List (IpAddress × Neighbor)) :
    Cache.minByExpires l = none ↔ l = [] := by
  cases l with
  | nil => simp [Cache.minByExpires]
  | cons p rest =>
    refine iff_of_false ?_ (by simp)
    simp only [Cache.minByExpires]
    cases hr : Cache.minByExpires rest with
    | none => simp
    | some m => by_cases hle : p.2.expires_at ≤ m.2.expires_at <;> simp [hle]

theorem minByExpires_spec :
    ∀ (l : List (IpAddress × Neighbor)) (p : IpAddress × Neighbor),
      Cache.minByExpires l = some p →
      (∃ pre post, l = pre ++ p :: post ∧
        ∀ e ∈ pre, p.2.expires_at < e.2.expires_at) ∧
      ∀ e ∈ l, p.2.expires_at ≤ e.2.expires_at := by
  intro l
  induction l with
  | nil => intro p h; simp [Cache.minByExpires] at h
  | cons q rest ih =>
    intro p h
    simp only [Cache.minByExpires] at h
    cases hr : Cache.minByExpires rest with
    | none =>
      rw [hr] at h
      have h2 : (some q : Option (IpAddress × Neighbor)) = some p := h
      obtain rfl := Option.some.inj h2
      have hnil : rest = [] := (minByExpires_eq_none_iff rest).mp hr
      subst hnil
      exact ⟨⟨[], [], by simp, by simp⟩, by simp⟩
    | some m =>
      rw [hr] at h
      have h2 : (if q.2.expires_at ≤ m.2.expires_at then some q else some m) =
          some p := h
      obtain ⟨⟨pre, post, hsplit, hpre⟩, hmin⟩ := ih m hr
      by_cases hle : q.2.expires_at ≤ m.2.expires_at
      · rw [if_pos hle] at h2
        obtain rfl := Option.some.inj h2
        refine ⟨⟨[], rest, by simp, by simp⟩, ?_⟩
        intro e he
        rcases List.mem_cons.mp he with rfl | he
        · exact le_refl _
        · exact le_trans hle (hmin e he)
      · rw [if_neg hle] at h2
        obtain rfl := Option.some.inj h2
        push_neg at hle
        refine ⟨⟨q :: pre, post, by simp [hsplit], ?_⟩, ?_⟩
        · intro e he
          rcases List.mem_cons.mp he with rfl | he
          · exact hle
          · exact hpre e he
        · intro e he
          rcases List.mem_cons.mp he with rfl | he
          · exact le_of_lt hle
          · exact hmin e he

theorem mem_of_minByExpires {l : List (IpAddress × Neighbor)}
    {p : IpAddress × Neighbor} (h : Cache.minByExpires l = some p) : p ∈ l := by
  obtain ⟨⟨pre, post, hsplit, _⟩, _⟩ := minByExpires_spec l p h
  subst hsplit
  simp

theorem insert_replaced_inv {m : BorrowedMap} {k : IpAddress} {v : Neighbor}
    {s : BorrowedMap} {old : Neighbor}
    (h : m.insert k v = .replaced s old) :
    replaceSlots k v m.slots = some (s.slots, old) := by
  unfold BorrowedMap.insert at h
  cases h1 : replaceSlots k v m.slots with
  | some p =>
    obtain ⟨l, o⟩ := p
    rw [h1] at h
    have h2 : InsertResult.replaced ⟨l⟩ o = .replaced s old := h
    injection h2 with ha hb
    subst hb
    rw [← ha]
  | none =>
    rw [h1] at h
    cases h2 : placeFree k v m.slots with
    | some l =>
      rw [h2] at h
      have h3 : InsertResult.fresh ⟨l⟩ = .replaced s old := h
      exact absurd h3 (by simp)
    | none =>
      rw [h2] at h
      have h3 : InsertResult.full = .replaced s old := h
      exact absurd h3 (by simp)

theorem insert_fresh_inv {m : BorrowedMap} {k : IpAddress} {v : Neighbor}
    {s : BorrowedMap} (h : m.insert k v = .fresh s) :
    replaceSlots k v m.slots = none ∧ placeFree k v m.slots = some s.slots := by
  unfold BorrowedMap.insert at h
  cases h1 : replaceSlots k v m.slots with
  | some p =>
    obtain ⟨l, o⟩ := p
    rw [h1] at h
    have h2 : InsertResult.replaced ⟨l⟩ o = .fresh s := h
    exact absurd h2 (by simp)
  | none =>
    rw [h1] at h
    cases h2 : placeFree k v m.slots with
    | some l =>
      rw [h2] at h
      have h3 : InsertResult.fresh ⟨l⟩ = .fresh s := h
      injection h3 with ha
      rw [← ha]
      exact ⟨rfl, rfl⟩
    | none =>
      rw [h2] at h
      have h3 : InsertResult.full = .fresh s := h
      exact absurd h3 (by simp)

theorem insert_full_inv {m : BorrowedMap} {k : IpAddress} {v : Neighbor}
    (h : m.insert k v = .full) :
    replaceSlots k v m.slots = none ∧ placeFree k v m.slots = none := by
  unfold BorrowedMap.insert at h
  cases h1 : replaceSlots k v m.slots with
  | some p =>
    obtain ⟨l, o⟩ := p
    rw [h1] at h
    have h2 : InsertResult.replaced ⟨l⟩ o = .full := h
    exact absurd h2 (by simp)
  | none =>
    rw [h1] at h
    cases h2 : placeFree k v m.slots with
    | some l =>
      rw [h2] at h
      have h3 : InsertResult.fresh ⟨l⟩ = .full := h
      exact absurd h3 (by simp)
    | none => exact ⟨rfl, rfl⟩

theorem insert_eq_replaced_of {m : BorrowedMap} {k : IpAddress} {v : Neighbor}
    {l : List Slot} {o : Neighbor} (h : replaceSlots k v m.slots = some (l, o)) :
    m.insert k v = .replaced ⟨l⟩ o := by
  unfold BorrowedMap.insert
  rw [h]

theorem insert_eq_fresh_of {m : BorrowedMap} {k : IpAddress} {v : Neighbor}
    {l : List Slot} (h1 : replaceSlots k v m.slots = none)
    (h2 : placeFree k v m.slots = some l) :
    m.insert k v = .fresh ⟨l⟩ := by
  unfold BorrowedMap.insert
  rw [h1, h2]

theorem remove_inv {m : BorrowedMap} {k : IpAddress} {s : BorrowedMap}
    {o : Neighbor} (h : m.remove k = some (s, o)) :
    removeSlots k m.slots = some (s.slots, o) := by
  unfold BorrowedMap.remove at h
  cases h1 : removeSlots k m.slots with
  | some p =>
    obtain ⟨l, o2⟩ := p
    rw [h1] at h
    have h2 : (some ((⟨l⟩ : BorrowedMap), o2) :
        Option (BorrowedMap × Neighbor)) = some (s, o) := h
    obtain h3 := Option.some.inj h2
    rw [show s = (⟨l⟩ : BorrowedMap) from (congrArg Prod.fst h3).symm,
      show o = o2 from (congrArg Prod.snd h3).symm]
  | none =>
    rw [h1] at h
    have h2 : (none : Option (BorrowedMap × Neighbor)) = some (s, o) := h
    exact absurd h2 (by simp)

theorem remove_eq_of {m : BorrowedMap} {k : IpAddress} {l : List Slot}
    {o : Neighbor} (h : removeSlots k m.slots = some (l, o)) :
    m.remove k = some (⟨l⟩, o) := by
  unfold BorrowedMap.remove
  rw [h]

theorem scanVictim_inv {slots : List Slot} {vk : IpAddress}
    (h : Cache.scanVictim slots = some vk) :
    slots.all Option.isSome = true ∧
    ∃ vn, Cache.minByExpires (slots.filterMap id) = some (vk, vn) := by
  unfold Cache.scanVictim at h
  by_cases hall : slots.all Option.isSome = true
  · rw [if_pos hall] at h
    cases h2 : Cache.minByExpires (slots.filterMap id) with
    | some p =>
      obtain ⟨k2, vn⟩ := p
      rw [h2] at h
      have h3 : (some k2 : Option IpAddress) = some vk := h
      obtain rfl := Option.some.inj h3
      exact ⟨hall, vn, rfl⟩
    | none =>
      rw [h2] at h
      have h3 : (none : Option IpAddress) = some vk := h
      exact absurd h3 (by simp)
  · rw [if_neg hall] at h
    exact absurd h (by simp)

theorem scanVictim_eq_of {slots : List Slot} {vk : IpAddress} {vn : Neighbor}
    (hall : slots.all Option.isSome = true)
    (h : Cache.minByExpires (slots.filterMap id) = some (vk, vn)) :
    Cache.scanVictim slots = some vk := by
  unfold Cache.scanVictim
  rw [if_pos hall, h]
  rfl

/-- Full case analysis of a successful `Cache::fill`: it either replaced an
existing entry in place, inserted into a free slot, or (bounded storage at
capacity) evicted the victim selected by the scan and then inserted. -/
theorem fill_cases (c : Cache) (P : IpAddress) (H : EthernetAddress)
    (t : Nat) (c' : Cache) (hf : c.fill P H t = some c') :
    (∃ s old, c.storage.insert P ⟨H, t + Cache.ENTRY_LIFETIME⟩ =
        .replaced s old ∧ c' = { c with storage := s }) ∨
    (∃ s, c.storage.insert P ⟨H, t + Cache.ENTRY_LIFETIME⟩ = .fresh s ∧
        c' = { c with storage := s }) ∨
    (c.storage.insert P ⟨H, t + Cache.ENTRY_LIFETIME⟩ = .full ∧
     ∃ vk s o s2, Cache.scanVictim c.storage.slots = some vk ∧
       c.storage.remove vk = some (s, o) ∧
       s.insert P ⟨H, t + Cache.ENTRY_LIFETIME⟩ = .fresh s2 ∧
       c' = { c with storage := s2 }) := by
  simp only [Cache.fill] at hf
  split at hf
  next s old heq =>
    exact Or.inl ⟨s, old, heq, (Option.some.inj hf).symm⟩
  next s heq =>
    exact Or.inr (Or.inl ⟨s, heq, (Option.some.inj hf).symm⟩)
  next heq =>
    refine Or.inr (Or.inr ⟨heq, ?_⟩)
    split at hf
    next heq2 => exact absurd hf (by simp)
    next vk heq2 =>
      split at hf
      next heq3 => exact absurd hf (by simp)
      next s o heq3 =>
        split at hf
        next s2 heq4 =>
          exact ⟨vk, s, o, s2, heq2, heq3, heq4, (Option.some.inj hf).symm⟩
        next heq4 => exact absurd hf (by simp)

theorem fill_get_self {c c' : Cache} {P : IpAddress} {H : EthernetAddress}
    {t : Nat} (hf : c.fill P H t = some c') :
    c'.storage.get P = some ⟨H, t + Cache.ENTRY_LIFETIME⟩ := by
  rcases fill_cases c P H t c' hf with
    ⟨s, old, hins, rfl⟩ | ⟨s, hins, rfl⟩ |
    ⟨hins, vk, s, o, s2, hsv, hrm, hins2, rfl⟩
  · exact (replaceSlots_spec _ _ _ _ _ (insert_replaced_inv hins)).1
  · obtain ⟨h1, h2⟩ := insert_fresh_inv hins
    exact (placeFree_spec _ _ _ _ h2).2.1
      ((replaceSlots_eq_none_iff _ _ _).mp h1)
  · obtain ⟨h1, h2⟩ := insert_fresh_inv hins2
    exact (placeFree_spec _ _ _ _ h2).2.1
      ((replaceSlots_eq_none_iff _ _ _).mp h1)

/-- A successful `fill` never touches `hushed_until`. -/
theorem fill_hushed_eq {c c' : Cache} {P : IpAddress} {H : EthernetAddress}
    {t : Nat} (hf : c.fill P H t = some c') :
    c'.hushed_until = c.hushed_until := by
  rcases fill_cases c P H t c' hf with
    ⟨s, old, hins, rfl⟩ | ⟨s, hins, rfl⟩ |
    ⟨hins, vk, s, o, s2, hsv, hrm, hins2, rfl⟩ <;> rfl

/-- A successful `fill` preserves key-uniqueness of the storage. -/
theorem fill_keys_nodup {c c' : Cache} {P : IpAddress} {H : EthernetAddress}
    {t : Nat} (hnd : c.storage.keys.Nodup) (hf : c.fill P H t = some c') :
    c'.storage.keys.Nodup := by
  have hnd0 : (keysOf c.storage.slots).Nodup := hnd
  rcases fill_cases c P H t c' hf with
    ⟨s, old, hins, rfl⟩ | ⟨s, hins, rfl⟩ |
    ⟨hins, vk, s, o, s2, hsv, hrm, hins2, rfl⟩
  · show (keysOf s.slots).Nodup
    rw [(replaceSlots_spec _ _ _ _ _ (insert_replaced_inv hins)).2.2.1]
    exact hnd0
  · obtain ⟨h1, h2⟩ := insert_fresh_inv hins
    show (keysOf s.slots).Nodup
    refine (placeFree_spec _ _ _ _ h2).1.nodup_iff.mpr
      (List.nodup_cons.mpr ⟨?_, hnd0⟩)
    exact (getSlots_eq_none_iff _ _).mp
      ((replaceSlots_eq_none_iff _ _ _).mp h1)
  · have hpermR := (removeSlots_spec _ _ _ _ (remove_inv hrm)).2.1
    have hnd2 : (vk :: keysOf s.slots).Nodup := hpermR.nodup_iff.mpr hnd0
    obtain ⟨h1, h2⟩ := insert_fresh_inv hins2
    show (keysOf s2.slots).Nodup
    refine (placeFree_spec _ _ _ _ h2).1.nodup_iff.mpr
      (List.nodup_cons.mpr ⟨?_, (List.nodup_cons.mp hnd2).2⟩)
    exact (getSlots_eq_none_iff _ _).mp
      ((replaceSlots_eq_none_iff _ _ _).mp h1)

/-- A `lookup` that answers `NotFound` sets `hushed_until` to
`timestamp + SILENT_TIME`. -/
theorem lookup_notfound_hushed {c c₁ : Cache} {P : IpAddress} {t : Nat}
    (h : c.lookup P t = (.NotFound, c₁)) :
    c₁.hushed_until = t + Cache.SILENT_TIME := by
  simp only [Cache.lookup] at h
  cases hlp : c.lookup_pure P t with
  | some hw => rw [hlp] at h; simp at h
  | none =>
    rw [hlp] at h
    by_cases hlt : t < c.hushed_until
    · rw [if_pos hlt] at h; simp at h
    · rw [if_neg hlt] at h
      simp only [Prod.mk.injEq] at h
      rw [← h.2]

/-- A `lookup` that resolves (`Found`) leaves the cache unchanged. -/
theorem lookup_found_frame {c c₁ : Cache} {P : IpAddress} {t : Nat}
    {hw : EthernetAddress} (h : c.lookup P t = (.Found hw, c₁)) : c₁ = c := by
  simp only [Cache.lookup] at h
  cases hlp : c.lookup_pure P t with
  | some hw' => rw [hlp] at h; simp only [Prod.mk.injEq] at h; exact h.2.symm
  | none =>
    rw [hlp] at h
    by_cases hlt : t < c.hushed_until
    · rw [if_pos hlt] at h; simp at h
    · rw [if_neg hlt] at h; simp at h

/-- The lookup `lookup_pure` of a non-broadcast address reads the storage entry. -/
theorem lookup_pure_of_get {c : Cache} {P : IpAddress} {n : Neighbor}
    (hb : P.is_broadcast = false) (hget : c.storage.get P = some n) :
    ∀ t' : Nat, c.lookup_pure P t' =
      if t' < n.expires_at then some n.hardware_addr else none := by
  intro t'
  simp [Cache.lookup_pure, hb, hget]

example : cache3.lookup_pure PADDR_A 0 = none := by decide

example : (cache3.fill PADDR_A HADDR_A 0).map
    (fun c => c.lookup_pure PADDR_A 0) = some (some HADDR_A) := by decide

example : (cache3.fill PADDR_A HADDR_A 0).map
    (fun c => c.lookup_pure PADDR_A (2 * Cache.ENTRY_LIFETIME)) =
    some none := by decide

example :
    ((cache3.fill PADDR_A HADDR_A 100).bind
      (fun c => (c.fill PADDR_B HADDR_B 50).bind
        (fun c => (c.fill PADDR_C HADDR_C 200).bind
          (fun c => c.fill PADDR_D HADDR_D 300)))).map
      (fun c => (c.lookup_pure PADDR_B 1000, c.lookup_pure PADDR_D 1000)) =
    some (none, some HADDR_D) := by decide

example : cache3.lookup PADDR_A 0 =
    (Answer.NotFound, ⟨cache3.storage, 1000⟩) := by decide

example : ((cache3.lookup PADDR_A 0).2.lookup PADDR_A 100).1 =
    Answer.Hushed := by decide

example : ((cache3.lookup PADDR_A 0).2.lookup PADDR_A 2000).1 =
    Answer.NotFound := by decide

/-- Case analysis of `Cache::lookup` in terms of `lookup_pure` and the hush
window. -/
theorem lookup_cases (c : Cache) (P : IpAddress) (t : Nat) :
    (∃ hw, c.lookup_pure P t = some hw ∧ c.lookup P t = (.Found hw, c)) ∨
    (c.lookup_pure P t = none ∧ t < c.hushed_until ∧
      c.lookup P t = (.Hushed, c)) ∨
    (c.lookup_pure P t = none ∧ ¬ t < c.hushed_until ∧
      c.lookup P t = (.NotFound,
        { c with hushed_until := t + Cache.SILENT_TIME })) := by
  unfold Cache.lookup
  cases hlp : c.lookup_pure P t with
  | some hw => exact Or.inl ⟨hw, rfl, rfl⟩
  | none =>
    by_cases hlt : t < c.hushed_until
    · exact Or.inr (Or.inl ⟨rfl, hlt, by exact if_pos hlt⟩)
    · exact Or.inr (Or.inr ⟨rfl, hlt, by exact if_neg hlt⟩)

/-- The result of `fill` when the insertion replaces an existing entry. -/
theorem fill_eq_of_insert_replaced {c : Cache} {P : IpAddress}
    {H : EthernetAddress} {t : Nat} {s : BorrowedMap} {old : Neighbor}
    (hins : c.storage.insert P ⟨H, t + Cache.ENTRY_LIFETIME⟩ =
      .replaced s old) :
    c.fill P H t = some { c with storage := s } := by
  simp only [Cache.fill, hins]

/-- The result of `fill` when the insertion goes into a free slot. -/
theorem fill_eq_of_insert_fresh {c : Cache} {P : IpAddress}
    {H : EthernetAddress} {t : Nat} {s : BorrowedMap}
    (hins : c.storage.insert P ⟨H, t + Cache.ENTRY_LIFETIME⟩ = .fresh s) :
    c.fill P H t = some { c with storage := s } := by
  simp only [Cache.fill, hins]

/-- The result of `fill` through the eviction branch. -/
theorem fill_eq_of_evict {c : Cache} {P : IpAddress} {H : EthernetAddress}
    {t : Nat} {vk : IpAddress} {s : BorrowedMap} {o : Neighbor}
    {s2 : BorrowedMap}
    (hfull : c.storage.insert P ⟨H, t + Cache.ENTRY_LIFETIME⟩ = .full)
    (hsv : Cache.scanVictim c.storage.slots = some vk)
    (hrm : c.storage.remove vk = some (s, o))
    (hins2 : s.insert P ⟨H, t + Cache.ENTRY_LIFETIME⟩ = .fresh s2) :
    c.fill P H t = some { c with storage := s2 } := by
  simp only [Cache.fill, hfull, hsv, hrm, hins2]

theorem insert_eq_full_of {m : BorrowedMap} {k : IpAddress} {v : Neighbor}
    (h1 : replaceSlots k v m.slots = none)
    (h2 : placeFree k v m.slots = none) : m.insert k v = .full := by
  unfold BorrowedMap.insert
  rw [h1, h2]

/-- Anatomy of a `fill` whose insertion fails with capacity exhaustion on
non-empty bounded storage: every slot is occupied, the eviction scan
returns the first minimal-`expires_at` key, removal and re-insertion
succeed, and the whole `fill` succeeds. -/
theorem full_fill_anatomy (c : Cache) (P : IpAddress) (H : EthernetAddress)
    (t : Nat) (hne : c.storage.slots ≠ [])
    (hfull : c.storage.insert P ⟨H, t + Cache.ENTRY_LIFETIME⟩ = .full) :
    ∃ vk vn s o s2,
      Cache.minByExpires c.storage.entries = some (vk, vn) ∧
      Cache.scanVictim c.storage.slots = some vk ∧
      removeSlots vk c.storage.slots = some (s, o) ∧
      replaceSlots P ⟨H, t + Cache.ENTRY_LIFETIME⟩ s = none ∧
      placeFree P ⟨H, t + Cache.ENTRY_LIFETIME⟩ s = some s2 ∧
      vk ≠ P ∧
      getSlots P c.storage.slots = none ∧
      c.storage.slots.all Option.isSome = true ∧
      c.fill P H t = some { c with storage := ⟨s2⟩ } := by
  obtain ⟨h1, h2⟩ := insert_full_inv hfull
  have hall : c.storage.slots.all Option.isSome = true :=
    (placeFree_eq_none_iff _ _ _).mp h2
  have hents : c.storage.slots.filterMap id ≠ [] := by
    cases hsl : c.storage.slots with
    | nil => exact absurd hsl hne
    | cons s0 rest =>
      have hs0 : s0.isSome = true := by
        rw [hsl] at hall
        rw [List.all_cons] at hall
        exact (Bool.and_eq_true_iff.mp hall).1
      obtain ⟨p0, rfl⟩ := Option.isSome_iff_exists.mp hs0
      simp [List.filterMap_cons]
  obtain ⟨⟨vk, vn⟩, hmp⟩ :
      ∃ p, Cache.minByExpires (c.storage.slots.filterMap id) = some p := by
    cases hm : Cache.minByExpires (c.storage.slots.filterMap id) with
    | some p => exact ⟨p, rfl⟩
    | none => exact absurd ((minByExpires_eq_none_iff _).mp hm) hents
  have hsv : Cache.scanVictim c.storage.slots = some vk :=
    scanVictim_eq_of hall hmp
  have hkmem : vk ∈ keysOf c.storage.slots :=
    List.mem_map.mpr ⟨(vk, vn), mem_of_minByExpires hmp, rfl⟩
  have hget_vk : getSlots vk c.storage.slots ≠ none := fun hcon =>
    ((getSlots_eq_none_iff _ _).mp hcon) hkmem
  obtain ⟨⟨s, o⟩, hrm⟩ : ∃ p, removeSlots vk c.storage.slots = some p := by
    cases hr : removeSlots vk c.storage.slots with
    | some p => exact ⟨p, rfl⟩
    | none => exact absurd ((removeSlots_eq_none_iff _ _).mp hr) hget_vk
  have hPabs : getSlots P c.storage.slots = none :=
    (replaceSlots_eq_none_iff _ _ _).mp h1
  have hvkP : vk ≠ P := by
    rintro rfl
    exact hget_vk hPabs
  have hPs : getSlots P s = none := by
    rw [(removeSlots_spec _ _ _ _ hrm).2.2.2 P (Ne.symm hvkP)]
    exact hPabs
  have hrep2 : replaceSlots P ⟨H, t + Cache.ENTRY_LIFETIME⟩ s = none :=
    (replaceSlots_eq_none_iff _ _ _).mpr hPs
  have hnotall : s.all Option.isSome = false :=
    (removeSlots_spec _ _ _ _ hrm).2.2.1
  obtain ⟨s2, hpl2⟩ :
      ∃ l, placeFree P ⟨H, t + Cache.ENTRY_LIFETIME⟩ s = some l := by
    cases hp : placeFree P ⟨H, t + Cache.ENTRY_LIFETIME⟩ s with
    | some l => exact ⟨l, rfl⟩
    | none =>
      rw [(placeFree_eq_none_iff _ _ _).mp hp] at hnotall
      exact absurd hnotall (by simp)
  have hins2 : BorrowedMap.insert ⟨s⟩ P ⟨H, t + Cache.ENTRY_LIFETIME⟩ =
      .fresh ⟨s2⟩ := insert_eq_fresh_of hrep2 hpl2
  refine ⟨vk, vn, s, o, s2, hmp, hsv, hrm, hrep2, hpl2, hvkP, hPabs, hall, ?_⟩
  exact fill_eq_of_evict hfull hsv (remove_eq_of hrm) hins2

/-- C1: for a unicast protocol address `P` and unicast hardware address `H`,
after a successful `fill(P, H, t0)` the pure lookup `lookup_pure(P, t)`
returns `H` for every `t0 ≤ t < t0 + 60_000` and returns nothing for every
`t ≥ t0 + 60_000` (no other operation intervening). -/
theorem fill_then_lookup_pure (c c' : Cache) (P : IpAddress)
    (H : EthernetAddress) (t0 : Nat)
    (hP : P.is_unicast = true) (_hH : H.is_unicast = true)
    (hf : c.fill P H t0 = some c') :
    ∀ t : Nat, (t0 ≤ t → t < t0 + 60000 → c'.lookup_pure P t = some H) ∧
      (t0 + 60000 ≤ t → c'.lookup_pure P t = none) := by
  have hb := IpAddress.not_broadcast_of_unicast hP
  have hget := fill_get_self hf
  intro t
  have hlp := lookup_pure_of_get hb hget t
  constructor
  · intro _ h2
    rw [hlp]
    rw [if_pos (show t < Neighbor.expires_at ⟨H, t0 + Cache.ENTRY_LIFETIME⟩ by
      show t < t0 + Cache.ENTRY_LIFETIME
      simpa [Cache.ENTRY_LIFETIME] using h2)]
  · intro h1
    rw [hlp]
    rw [if_neg (show ¬ t < Neighbor.expires_at ⟨H, t0 + Cache.ENTRY_LIFETIME⟩ by
      show ¬ t < t0 + Cache.ENTRY_LIFETIME
      simp only [Cache.ENTRY_LIFETIME]
      omega)]

/-- Witness for C1: a concrete fill at `t0 = 0` resolves at `t = 59_999` and
is stale at `t = 60_000`. -/
theorem fill_then_lookup_pure_witness :
    cacheA.lookup_pure PADDR_A 59999 = some HADDR_A ∧
    cacheA.lookup_pure PADDR_A 60000 = none := by
  have h := fill_then_lookup_pure cache3 cacheA PADDR_A HADDR_A 0
    (by decide) (by decide) (by decide)
  exact ⟨(h 59999).1 (by decide) (by decide), (h 60000).2 (by decide)⟩

/-- C2: `lookup(P, t)` returns `Found(H)` when `lookup_pure(P, t) = some H`
(cache unchanged); otherwise `Hushed` when `t < hushed_until` (cache
unchanged); otherwise `NotFound`, setting `hushed_until := t + 1_000`. -/
theorem lookup_state_machine (c : Cache) (P : IpAddress) (t : Nat) :
    (∀ H, c.lookup_pure P t = some H → c.lookup P t = (.Found H, c)) ∧
    (c.lookup_pure P t = none → t < c.hushed_until →
      c.lookup P t = (.Hushed, c)) ∧
    (c.lookup_pure P t = none → ¬ t < c.hushed_until →
      c.lookup P t = (.NotFound, { c with hushed_until := t + 1000 })) := by
  rcases lookup_cases c P t with
    ⟨hw, hlp, heq⟩ | ⟨hlp, hlt, heq⟩ | ⟨hlp, hlt, heq⟩
  · refine ⟨?_, ?_, ?_⟩
    · intro H h
      rw [hlp] at h
      obtain rfl := Option.some.inj h
      exact heq
    · intro h; rw [hlp] at h; exact absurd h (by simp)
    · intro h; rw [hlp] at h; exact absurd h (by simp)
  · refine ⟨?_, ?_, ?_⟩
    · intro H h; rw [hlp] at h; exact absurd h (by simp)
    · intro _ _; exact heq
    · intro _ h; exact absurd hlt h
  · refine ⟨?_, ?_, ?_⟩
    · intro H h; rw [hlp] at h; exact absurd h (by simp)
    · intro _ h; exact absurd h hlt
    · intro _ _; exact heq

/-- Witness for C2: all three branches at concrete caches. -/
theorem lookup_state_machine_witness :
    cacheHushed.lookup PADDR_A 0 = (.Found HADDR_A, cacheHushed) ∧
    cacheHushed.lookup PADDR_B 400 = (.Hushed, cacheHushed) ∧
    cacheHushed.lookup PADDR_B 600 =
      (.NotFound, { cacheHushed with hushed_until := 1600 }) := by
  refine ⟨?_, ?_, ?_⟩
  · exact (lookup_state_machine cacheHushed PADDR_A 0).1 HADDR_A (by decide)
  · exact (lookup_state_machine cacheHushed PADDR_B 400).2.1
      (by decide) (by decide)
  · exact (lookup_state_machine cacheHushed PADDR_B 600).2.2
      (by decide) (by decide)

/-- C7: looking up the protocol broadcast address always yields the hardware
broadcast address, whatever the storage contents, `hushed_until` and the
timestamp. -/
theorem broadcast_lookup_pure (c : Cache) (P : IpAddress) (t : Nat)
    (hP : P.is_broadcast = true) :
    c.lookup_pure P t = some EthernetAddress.BROADCAST := by
  unfold Cache.lookup_pure
  rw [hP]
  exact if_pos rfl

/-- Witness for C7 on a non-trivial cache. -/
theorem broadcast_lookup_pure_witness :
    cacheHushed.lookup_pure ⟨255, 255, 255, 255⟩ 123456 =
      some EthernetAddress.BROADCAST :=
  broadcast_lookup_pure cacheHushed ⟨255, 255, 255, 255⟩ 123456 (by decide)

/-- C9: `fill` never changes `hushed_until`; `lookup` changes it exactly in
its `NotFound` branch, where it becomes `t + 1_000`. -/
theorem hushed_until_frame (c c' : Cache) (P : IpAddress)
    (H : EthernetAddress) (t : Nat) :
    (c.fill P H t = some c' → c'.hushed_until = c.hushed_until) ∧
    ((c.lookup P t).1 ≠ .NotFound →
      ((c.lookup P t).2).hushed_until = c.hushed_until) ∧
    ((c.lookup P t).1 = .NotFound →
      ((c.lookup P t).2).hushed_until = t + 1000) := by
  refine ⟨fun hf => fill_hushed_eq hf, ?_, ?_⟩ <;>
    rcases lookup_cases c P t with
      ⟨hw, hlp, heq⟩ | ⟨hlp, hlt, heq⟩ | ⟨hlp, hlt, heq⟩ <;>
    rw [heq] <;> intro h
  · rfl
  · rfl
  · exact absurd rfl h
  · exact absurd h (by simp)
  · exact absurd h (by simp)
  · rfl

/-- Witness for C9: a concrete fill and both lookup branches. -/
theorem hushed_until_frame_witness :
    cacheA.hushed_until = cache3.hushed_until ∧
    ((cacheHushed.lookup PADDR_A 0).2).hushed_until =
      cacheHushed.hushed_until ∧
    ((cacheHushed.lookup PADDR_B 600).2).hushed_until = 1600 := by
  refine ⟨?_, ?_, ?_⟩
  · exact (hushed_until_frame cache3 cacheA PADDR_A HADDR_A 0).1 (by decide)
  · exact (hushed_until_frame cacheHushed cacheA PADDR_A HADDR_A 0).2.1
      (by decide)
  · exact (hushed_until_frame cacheHushed cacheA PADDR_B HADDR_B 600).2.2
      (by decide)

/-- C5 (evidence for the code defect): `Cache::new` on zero-capacity bounded
storage does not fail — it returns a cache on which `lookup` operates
normally; the failure only surfaces at the first `fill` that needs an
insertion, whose eviction scan panics
(`expect("empty neighbor cache storage")`, modelled as a `none` result). -/
theorem zero_capacity_new_succeeds :
    Cache.new ⟨[]⟩ = ⟨⟨[]⟩, 0⟩ ∧
    (Cache.new ⟨[]⟩).lookup PADDR_A 0 = (.NotFound, ⟨⟨[]⟩, 1000⟩) ∧
    Cache.fill (Cache.new ⟨[]⟩) PADDR_A HADDR_A 0 = none := by
  decide

/-- Fills and resolved lookups never move the hush window. -/
theorem Steps.hushed_eq {a b : Cache} (h : Steps a b) :
    b.hushed_until = a.hushed_until := by
  induction h with
  | refl c => rfl
  | fill c c' c'' p hw t hf hs ih => rw [ih, fill_hushed_eq hf]
  | found c c' c'' p t hw hl hs ih => rw [ih, lookup_found_frame hl]

/-- C3: the hush window is global across addresses — once `lookup(A, t)`
answers `NotFound`, every later `lookup(B, t')` whose pure lookup does not
resolve, with `t ≤ t' < t + 1_000`, answers `Hushed` (never `NotFound`),
regardless of intervening successful fills and resolved lookups. -/
theorem global_hush_window (c c₁ c₂ : Cache) (A B : IpAddress) (t t' : Nat)
    (h1 : c.lookup A t = (.NotFound, c₁))
    (hs : Steps c₁ c₂)
    (hB : c₂.lookup_pure B t' = none)
    (_hle : t ≤ t') (hlt : t' < t + 1000) :
    c₂.lookup B t' = (.Hushed, c₂) ∧ (c₂.lookup B t').1 ≠ .NotFound := by
  have hh : c₂.hushed_until = t + Cache.SILENT_TIME := by
    rw [hs.hushed_eq, lookup_notfound_hushed h1]
  have hcond : t' < c₂.hushed_until := by
    rw [hh]
    simpa [Cache.SILENT_TIME] using hlt
  rcases lookup_cases c₂ B t' with
    ⟨hw, hlp, heq⟩ | ⟨hlp, _, heq⟩ | ⟨hlp, hnlt, heq⟩
  · rw [hB] at hlp
    exact absurd hlp (by simp)
  · refine ⟨heq, ?_⟩
    rw [heq]
    simp
  · exact absurd hcond hnlt

/-- Witness for C3: a miss on `PADDR_A` at `t = 0` hushes a miss on the
different address `PADDR_B` at `t = 100`, across an intervening fill. -/
theorem global_hush_window_witness :
    cacheHush2.lookup PADDR_B 100 = (.Hushed, cacheHush2) ∧
    (cacheHush2.lookup PADDR_B 100).1 ≠ .NotFound :=
  global_hush_window cache3 cacheHush1 cacheHush2 PADDR_A PADDR_B 0 100
    (by decide)
    (Steps.fill cacheHush1 cacheHush2 cacheHush2 PADDR_C HADDR_C 10
      (by decide) (Steps.refl cacheHush2))
    (by decide) (by decide) (by decide)

/-- C6: on bounded storage with capacity at least 1, whenever an insertion
fails with capacity exhaustion the storage has at least one occupied slot,
the eviction scan finds a victim, its removal succeeds, the re-insertion
succeeds, and the whole `fill` succeeds — the
`expect("empty neighbor cache storage")` branch is unreachable. -/
theorem eviction_never_fails (c : Cache) (P : IpAddress)
    (H : EthernetAddress) (t : Nat)
    (hcap : 1 ≤ c.storage.slots.length)
    (hfull : c.storage.insert P ⟨H, t + Cache.ENTRY_LIFETIME⟩ = .full) :
    c.storage.entries ≠ [] ∧
    ∃ vk, Cache.scanVictim c.storage.slots = some vk ∧
      ∃ s o, c.storage.remove vk = some (s, o) ∧
        ∃ s2, s.insert P ⟨H, t + Cache.ENTRY_LIFETIME⟩ = .fresh s2 ∧
          c.fill P H t = some { c with storage := s2 } := by
  have hne : c.storage.slots ≠ [] := by
    intro h
    rw [h] at hcap
    simp at hcap
  obtain ⟨vk, vn, s, o, s2, hmp, hsv, hrm, hrep2, hpl2, hvkP, hPabs, hall,
    hfill⟩ := full_fill_anatomy c P H t hne hfull
  exact ⟨List.ne_nil_of_mem (mem_of_minByExpires hmp), vk, hsv, ⟨s⟩, o,
    remove_eq_of hrm, ⟨s2⟩, insert_eq_fresh_of hrep2 hpl2, hfill⟩

/-- Witness for C6: a fill into a full capacity-1 cache evicts and
succeeds. -/
theorem eviction_never_fails_witness :
    cacheFull1.storage.entries ≠ [] ∧
    ∃ vk, Cache.scanVictim cacheFull1.storage.slots = some vk ∧
      ∃ s o, cacheFull1.storage.remove vk = some (s, o) ∧
        ∃ s2, s.insert PADDR_B ⟨HADDR_B, 200 + Cache.ENTRY_LIFETIME⟩ =
            .fresh s2 ∧
          cacheFull1.fill PADDR_B HADDR_B 200 =
            some { cacheFull1 with storage := s2 } :=
  eviction_never_fails cacheFull1 PADDR_B HADDR_B 200 (by decide) (by decide)

/-- C8: after `fill(P, H1, t)`, a second `fill(P, H2, t)` replaces the entry
in place — subsequent pure lookups of `P` return `H2`, the key set (hence
key-uniqueness) is untouched, and no other entry changes. -/
theorem replace_semantics (c c₁ : Cache) (P : IpAddress)
    (H1 H2 : EthernetAddress) (t : Nat)
    (hP : P.is_unicast = true)
    (hnd : c.storage.keys.Nodup)
    (hf1 : c.fill P H1 t = some c₁) :
    c₁.storage.keys.Nodup ∧
    ∃ c₂, c₁.fill P H2 t = some c₂ ∧
      c₂.storage.keys.Nodup ∧
      c₂.storage.keys = c₁.storage.keys ∧
      (∀ t', t' < t + 60000 → c₂.lookup_pure P t' = some H2) ∧
      (∀ q, q ≠ P → c₂.storage.get q = c₁.storage.get q) := by
  have hnd1 : c₁.storage.keys.Nodup := fill_keys_nodup hnd hf1
  have hget1 := fill_get_self hf1
  obtain ⟨⟨l, o⟩, hrep⟩ :
      ∃ p, replaceSlots P ⟨H2, t + Cache.ENTRY_LIFETIME⟩ c₁.storage.slots =
        some p := by
    cases hr : replaceSlots P ⟨H2, t + Cache.ENTRY_LIFETIME⟩
        c₁.storage.slots with
    | some p => exact ⟨p, rfl⟩
    | none =>
      have h0 : c₁.storage.get P = none :=
        (replaceSlots_eq_none_iff _ _ _).mp hr
      rw [hget1] at h0
      exact absurd h0 (by simp)
  obtain ⟨hg2, hg1, hkeys, hframe⟩ := replaceSlots_spec _ _ _ _ _ hrep
  have hf2 : c₁.fill P H2 t = some { c₁ with storage := ⟨l⟩ } :=
    fill_eq_of_insert_replaced (insert_eq_replaced_of hrep)
  have hb := IpAddress.not_broadcast_of_unicast hP
  refine ⟨hnd1, { c₁ with storage := ⟨l⟩ }, hf2, ?_, ?_, ?_, ?_⟩
  · show (keysOf l).Nodup
    rw [hkeys]
    exact hnd1
  · show keysOf l = keysOf c₁.storage.slots
    exact hkeys
  · intro t' ht'
    have hget2 : ({ c₁ with storage := (⟨l⟩ : BorrowedMap) } :
        Cache).storage.get P = some ⟨H2, t + Cache.ENTRY_LIFETIME⟩ := hg2
    rw [lookup_pure_of_get hb hget2 t']
    rw [if_pos (show t' < Neighbor.expires_at ⟨H2, t + Cache.ENTRY_LIFETIME⟩ by
      show t' < t + Cache.ENTRY_LIFETIME
      simpa [Cache.ENTRY_LIFETIME] using ht')]
  · intro q hq
    exact hframe q hq

/-- Witness for C8 at the concrete caches of the source's `test_replace`. -/
theorem replace_semantics_witness :
    cacheA.storage.keys.Nodup ∧
    ∃ c₂, cacheA.fill PADDR_A HADDR_B 0 = some c₂ ∧
      c₂.storage.keys.Nodup ∧
      c₂.storage.keys = cacheA.storage.keys ∧
      (∀ t', t' < 0 + 60000 → c₂.lookup_pure PADDR_A t' = some HADDR_B) ∧
      (∀ q, q ≠ PADDR_A → c₂.storage.get q = cacheA.storage.get q) :=
  replace_semantics cache3 cacheA PADDR_A HADDR_A HADDR_B 0
    (by decide) (by decide) (by decide)

/-- C4: a fill of an absent key into a full bounded cache evicts exactly one
entry — the first one (in storage iteration order) with minimal
`expires_at` — then inserts the new entry; all other entries are unchanged
and the number of occupied slots is preserved. -/
theorem bounded_eviction (c : Cache) (P : IpAddress) (H : EthernetAddress)
    (t : Nat)
    (hnd : c.storage.keys.Nodup)
    (hfull : c.storage.slots.all Option.isSome = true)
    (hne : c.storage.slots ≠ [])
    (habs : c.storage.get P = none) :
    ∃ vk vn c',
      Cache.minByExpires c.storage.entries = some (vk, vn) ∧
      (vk, vn) ∈ c.storage.entries ∧
      (∀ e ∈ c.storage.entries, vn.expires_at ≤ e.2.expires_at) ∧
      (∃ pre post, c.storage.entries = pre ++ (vk, vn) :: post ∧
        ∀ e ∈ pre, vn.expires_at < e.2.expires_at) ∧
      c.fill P H t = some c' ∧
      c'.storage.get vk = none ∧
      c'.storage.get P = some ⟨H, t + Cache.ENTRY_LIFETIME⟩ ∧
      (∀ q, q ≠ vk → q ≠ P → c'.storage.get q = c.storage.get q) ∧
      c'.storage.entries.length = c.storage.entries.length := by
  have hrepnone : replaceSlots P ⟨H, t + Cache.ENTRY_LIFETIME⟩
      c.storage.slots = none := (replaceSlots_eq_none_iff _ _ _).mpr habs
  have hplnone : placeFree P ⟨H, t + Cache.ENTRY_LIFETIME⟩
      c.storage.slots = none := (placeFree_eq_none_iff _ _ _).mpr hfull
  have hins : c.storage.insert P ⟨H, t + Cache.ENTRY_LIFETIME⟩ = .full :=
    insert_eq_full_of hrepnone hplnone
  obtain ⟨vk, vn, s, o, s2, hmp, hsv, hrm, hrep2, hpl2, hvkP, hPabs, hall,
    hfill⟩ := full_fill_anatomy c P H t hne hins
  obtain ⟨⟨pre, post, hsplit, hpre⟩, hmin⟩ := minByExpires_spec _ _ hmp
  obtain ⟨hrmget, hrmperm, hrmhole, hrmframe⟩ := removeSlots_spec _ _ _ _ hrm
  obtain ⟨hplperm, hplget, hplframe⟩ := placeFree_spec _ _ _ _ hpl2
  have hnd0 : (keysOf c.storage.slots).Nodup := hnd
  have hnds : (vk :: keysOf s).Nodup := hrmperm.nodup_iff.mpr hnd0
  have hvk_s_none : getSlots vk s = none :=
    (getSlots_eq_none_iff _ _).mpr (List.nodup_cons.mp hnds).1
  refine ⟨vk, vn, { c with storage := ⟨s2⟩ }, hmp,
    mem_of_minByExpires hmp, hmin, ⟨pre, post, hsplit, hpre⟩, hfill,
    ?_, ?_, ?_, ?_⟩
  · show getSlots vk s2 = none
    rw [hplframe vk hvkP]
    exact hvk_s_none
  · show getSlots P s2 = some ⟨H, t + Cache.ENTRY_LIFETIME⟩
    exact hplget ((replaceSlots_eq_none_iff _ _ _).mp hrep2)
  · intro q hqvk hqP
    show getSlots q s2 = getSlots q c.storage.slots
    rw [hplframe q hqP, hrmframe q hqvk]
  · show (s2.filterMap id).length = (c.storage.slots.filterMap id).length
    have h1 : (keysOf s2).length = (P :: keysOf s).length := hplperm.length_eq
    have h2 : (vk :: keysOf s).length = (keysOf c.storage.slots).length :=
      hrmperm.length_eq
    have e1 : (keysOf s2).length = (s2.filterMap id).length :=
      List.length_map _ _
    have e2 : (keysOf c.storage.slots).length =
        (c.storage.slots.filterMap id).length := List.length_map _ _
    rw [← e1, ← e2]
    simp only [List.length_cons] at h1 h2
    omega

/-- Witness for C4: filling `D` at `t = 300` evicts `B` (smallest
`expires_at`), after which `B` is absent and `D` resolves. -/
theorem bounded_eviction_witness :
    ((cacheABC.fill PADDR_D HADDR_D 300).map
      (fun c => (c.lookup_pure PADDR_B 1000, c.lookup_pure PADDR_D 1000)) =
      some (none, some HADDR_D)) ∧
    (∃ vk vn c',
      Cache.minByExpires cacheABC.storage.entries = some (vk, vn) ∧
      (vk, vn) ∈ cacheABC.storage.entries ∧
      (∀ e ∈ cacheABC.storage.entries, vn.expires_at ≤ e.2.expires_at) ∧
      (∃ pre post, cacheABC.storage.entries = pre ++ (vk, vn) :: post ∧
        ∀ e ∈ pre, vn.expires_at < e.2.expires_at) ∧
      cacheABC.fill PADDR_D HADDR_D 300 = some c' ∧
      c'.storage.get vk = none ∧
      c'.storage.get PADDR_D = some ⟨HADDR_D, 300 + Cache.ENTRY_LIFETIME⟩ ∧
      (∀ q, q ≠ vk → q ≠ PADDR_D →
        c'.storage.get q = cacheABC.storage.get q) ∧
      c'.storage.entries.length = cacheABC.storage.entries.length) :=
  ⟨by decide,
    bounded_eviction cacheABC PADDR_D HADDR_D 300
      (by decide) (by decide) (by decide) (by decide)⟩

/-- C10: the tracer is a transparent pass-through. On receive, `consume`
returns exactly the closure's result, hands the closure the unmodified
received buffer, and the writer is invoked exactly once, with the same
timestamp, on that buffer, before any effect of the closure. On transmit,
`consume` returns exactly the closure's result, forwards the closure's
buffer to the inner device untouched, and the writer is invoked exactly
once, with the same timestamp, on that final buffer, after all effects of
the closure. -/
theorem tracer_pass_through :
    ∀ (R : Type) (rx : Tracer.RxToken) (tx : Tracer.TxToken)
      (ts len : Nat)
      (f : List Nat → R × List Tracer.WriterCall)
      (g : List Nat → List Nat × R × List Tracer.WriterCall),
      rx.consume ts f =
        ((f rx.token.buffer).1,
          ⟨ts, "<- ", rx.token.buffer⟩ :: (f rx.token.buffer).2) ∧
      tx.consume ts len g =
        ((g (tx.token.scratch len)).1,
          (g (tx.token.scratch len)).2.1,
          (g (tx.token.scratch len)).2.2 ++
            [⟨ts, "-> ", (g (tx.token.scratch len)).1⟩]) := by
  intro R rx tx ts len f g
  exact ⟨rfl, rfl⟩
